import Mathlib

/-!
Verification of the nbexchange synchronization core against its specification.

The pure string machinery (`contains_format`, `format_keys`, `maybe_format`,
`get_directory_structure`, `get_files`, `api_request`) is embedded from
`nbexchange/plugin/exchange.py`.  Python's `re` patterns and `str.format` are
embedded as executable recursive functions over `List Char` with the same
observable behaviour on the inputs at issue.  The transfer plugins
(fetch/submit/collect) are not part of the sources here, only their tests are;
those operations are modelled from the specification text and marked as such.
-/

namespace NbExchange

/-- Python exception kinds raised by the embedded functions, plus an explicit
out-of-model marker: `notModelled field` is produced by `pyFormat` exactly
where CPython `str.format` would apply conversion, format-spec, attribute or
index machinery to a successfully looked-up value (behaviour this embedding
does not reproduce), so that no theorem can mistake that boundary for a real
outcome of the program. -/
inductive PyExc where
  | valueError
  | keyError (key : String)
  | indexError
  | notImplementedError (msg : String)
  | notModelled (field : String)
deriving DecidableEq

/-- Whether `[^}]+}` matches at the start of `l` (the body of the
`contains_format` pattern after its `{`): at least one non-`}` character
followed by a `}`. -/
def cfBody : List Char → Bool
  | [] => false
  | c :: rest => c != '}' && rest.contains '}'

/-- `re.search("([^{]|^){[^}]+}", s)` scanning the characters of `s`.  The flag
`ok` records whether a match's `{` may sit at the current position: true at the
start of the string or when the previous character is not `{`. -/
def cfAux : Bool → List Char → Bool
  | _, [] => false
  | ok, c :: rest => (ok && c == '{' && cfBody rest) || cfAux (c != '{') rest

/-- `contains_format` from exchange.py: whether the string has a format marker,
per `re.search("([^{]|^){[^}]+}", string)`. -/
def contains_format (s : String) : Bool :=
  cfAux true s.data

/-- `re.finditer("([^{]|^){([^}]+)}", s)`, collecting the second capture group
of every non-overlapping match, scanning left to right as a two-mode machine.
In scanning mode (`key = none`) the flag `ok` is as in `cfAux`, with the
additional twist that the character right after a match's closing `}` was
consumed by that match and can therefore not serve as the `([^{]|^)` group of
the next match.  An `ok` opening brace enters key mode (`key = some acc`, the
key characters so far in reverse); a `}` then emits the key when it is
non-empty (an empty body fails the `[^}]+` and scanning resumes at the `}`
itself), and a key left open at the end of the string matches nothing. -/
def fkAux (key : Option (List Char)) (ok : Bool) (l : List Char) : List (List Char) :=
  match key, l with
  | _, [] => []
  | none, c :: rest =>
    if ok && c == '{' then fkAux (some []) false rest
    else fkAux none (c != '{') rest
  | some acc, c :: rest =>
    if c == '}' then
      if acc.isEmpty then fkAux none true rest
      else acc.reverse :: fkAux none false rest
    else fkAux (some (c :: acc)) false rest

/-- `format_keys` from exchange.py: all format keys found in the string, per
`re.finditer("([^{]|^){([^}]+)}", string)`. -/
def format_keys (s : String) : List String :=
  (fkAux none true s.data).map (fun t => String.mk t)

/-- Splits a character list at the first character satisfying `p`: returns the
(possibly empty) run before it and the remainder starting with it (the whole
list and `[]` when no character satisfies `p`). -/
def splitAtFirst (p : Char → Bool) : List Char → List Char × List Char
  | [] => ([], [])
  | c :: l =>
    if p c then ([], c :: l)
    else
      let q := splitAtFirst p l
      (c :: q.1, q.2)

/-- Scanner modes of `pyFormat`: ordinary text; just after an opening `{`
(escape or field start pending); inside a replacement field (the field
characters so far, in reverse); just after a closing `}` (only its escape
partner may follow). -/
inductive FmtMode where
  | scan
  | openBrace
  | inField (acc : List Char)
  | closeBrace

/-- The fragment of CPython `str.format` exercised by exchange.py: literal
text with `{{` and `}}` escapes and replacement fields, scanned one character
at a time (see `FmtMode`).  A field is parsed as CPython does: its name ends
at the first `!` (conversion) or `:` (format spec), and the leading lookup
name ends at the first `.` (attribute) or `[` (index); every other character,
`]` and spaces included, is a plain name character.  As in CPython, an empty
or all-digit leading name refers to a positional argument (none are ever
passed here) and raises IndexError, a leading name absent from `m` raises
KeyError — both checked before any conversion or spec is considered — and a
lone `}`, an unterminated `{`, an unterminated field, or a `{` in the name
part of a field raise ValueError.  What happens after a successful lookup on a
field that still carries a conversion, spec, attribute or index part (CPython
would convert, apply the spec — possibly with nested replacement fields — or
resolve the access, variously substituting or raising ValueError or
AttributeError), and a `{` opening a nested field inside a spec, are outside
this model and yield the dedicated `PyExc.notModelled` marker, never a
substitution. -/
def pyFormat (m : List (String × String)) (mode : FmtMode) (l : List Char) :
    Except PyExc (List Char) :=
  match mode, l with
  | .scan, [] => .ok []
  | .openBrace, [] => .error .valueError
  | .inField _, [] => .error .valueError
  | .closeBrace, [] => .error .valueError
  | .scan, c :: rest =>
    if c == '{' then pyFormat m .openBrace rest
    else if c == '}' then pyFormat m .closeBrace rest
    else (pyFormat m .scan rest).map (fun out => c :: out)
  | .openBrace, c :: rest =>
    if c == '{' then (pyFormat m .scan rest).map (fun out => '{' :: out)
    else if c == '}' then .error .indexError
    else pyFormat m (.inField [c]) rest
  | .closeBrace, c :: rest =>
    if c == '}' then (pyFormat m .scan rest).map (fun out => '}' :: out)
    else .error .valueError
  | .inField acc, c :: rest =>
    if c == '}' then
      let nameSpec := splitAtFirst (fun d => d == '!' || d == ':') acc.reverse
      let nameAcc := splitAtFirst (fun d => d == '.' || d == '[') nameSpec.1
      if nameAcc.1.isEmpty || nameAcc.1.all Char.isDigit then .error .indexError
      else
        match List.lookup (String.mk nameAcc.1) m with
        | none => .error (.keyError (String.mk nameAcc.1))
        | some v =>
          if nameAcc.2.isEmpty && nameSpec.2.isEmpty then
            (pyFormat m .scan rest).map (fun out => v.data ++ out)
          else .error (.notModelled (String.mk acc.reverse))
    else if c == '{' then
      if acc.contains ':' then .error (.notModelled (String.mk acc.reverse))
      else .error .valueError
    else pyFormat m (.inField (c :: acc)) rest

/-- The keyword map `maybe_format` passes to `str.format`: every key found by
`format_keys` but absent from `values` is sent to the literal token `{key}`,
and the bindings of `values` are kept as they are. -/
def mf_map (s : String) (values : List (String × String)) : List (String × String) :=
  ((format_keys s).filter (fun x => (List.lookup x values).isNone)).map
      (fun x => (x, "\x7b" ++ x ++ "\x7d"))
    ++ values

/-- `maybe_format` from exchange.py: applies all available bindings to the
string, leaving the other format tokens in.  Only a KeyError raised by
`str.format` is caught (returning the original string); any other exception
propagates to the caller. -/
def maybe_format (s : String) (values : List (String × String)) : Except PyExc String :=
  match pyFormat (mf_map s values) .scan s.data with
  | .ok out => .ok (String.mk out)
  | .error (.keyError _) => .ok s
  | .error e => .error e

/-- `os.path.join` on two POSIX path pieces. -/
def path_join (a b : String) : String :=
  if b.data.head? = some '/' then b
  else if a.data.isEmpty then b
  else if a.data.getLast? = some '/' then String.mk (a.data ++ b.data)
  else String.mk (a.data ++ '/' :: b.data)

/-- Helper for `full_split`: groups a character list into the runs separated by
`/` characters (the separators are dropped, empty runs are kept). -/
def split_slash : List Char → List (List Char)
  | [] => [[]]
  | c :: rest =>
    match split_slash rest with
    | [] => [[c]]
    | g :: gs => if c = '/' then [] :: g :: gs else (c :: g) :: gs

/-- Modelled from the spec: `full_split` is imported by exchange.py from
nbgrader (not part of this repository).  Per the spec a directory-structure
template is "an ordered sequence of path segments"; `full_split` splits the
template string into that sequence of components. -/
def full_split (path : String) : List String :=
  ((split_slash path.data).filter (fun g => g ≠ [])).map String.mk

/-- The loop of `Exchange.get_directory_structure`: each template part is
partially formatted, and a part without format markers is merged (with
`os.path.join`) into the previous accumulated component when that one has no
format markers either.  The accumulator is kept in reverse order so that the
merge touches its head.  An exception escaping `maybe_format` propagates. -/
def gds_loop (kwargs : List (String × String)) :
    List String → List String → Except PyExc (List String)
  | acc, [] => .ok acc.reverse
  | acc, part :: parts =>
    match maybe_format part kwargs with
    | .error e => .error e
    | .ok the_part =>
      match acc with
      | last :: accRest =>
        if !contains_format the_part && !contains_format last then
          gds_loop kwargs (path_join last the_part :: accRest) parts
        else
          gds_loop kwargs (the_part :: last :: accRest) parts
      | [] => gds_loop kwargs [the_part] parts

/-- `Exchange.get_directory_structure` from exchange.py. -/
def get_directory_structure (directory_structure : String)
    (kwargs : List (String × String)) : Except PyExc (List String) :=
  gds_loop kwargs [] (full_split directory_structure)

/-- The filesystem as observed through the `os` calls made by `get_files`:
`os.path.exists`, `os.path.isdir` and `os.listdir` (the latter modelled as a
total function, only ever consulted behind the corresponding guard). -/
structure FSModel where
  pathExists : String → Bool
  isDir : String → Bool
  listdir : String → List String

/-- One result dict of `get_files`: the files of one directory, the directory
itself, and the placeholder values bound on the way down. -/
structure DirEntry where
  files : List String
  root : String
  details : List (String × String)
deriving DecidableEq

/-- Python dict assignment `d[k] = v` on an insertion-ordered dict. -/
def dict_insert (k v : String) (d : List (String × String)) : List (String × String) :=
  if (List.lookup k d).isSome then d.map (fun p => if p.1 = k then (k, v) else p)
  else d ++ [(k, v)]

/-- Python `str.strip("{}")`: removes leading and trailing braces. -/
def strip_braces (s : String) : String :=
  String.mk (((s.data.dropWhile (fun c => c = '{' || c = '}')).reverse.dropWhile
    (fun c => c = '{' || c = '}')).reverse)

/-- `Exchange.get_files` from exchange.py, for a string root.  With an empty
remaining structure it lists the root if that is a directory and returns
nothing otherwise; a placeholder-free head descends literally; a placeholder
head enumerates the subdirectories of the root (empty result if the root does
not exist), binding the stripped placeholder name to each subdirectory name.
The `isinstance(root, list)` branch (used when a caller passes the output of
`get_directory_structure` as root) flattens into a call on the list head and is
embedded as `get_files_from_list` below. -/
def get_files (fs : FSModel) (root : String) (struct : List String)
    (kwargs : List (String × String)) : List DirEntry :=
  match struct with
  | [] =>
    if fs.isDir root then
      [{ files := (fs.listdir root).map (fun f => path_join root f),
         root := root, details := kwargs }]
    else []
  | seg :: rest =>
    if !contains_format seg then
      get_files fs (path_join root seg) rest kwargs
    else if fs.pathExists root then
      (fs.listdir root).flatMap (fun filename =>
        if fs.isDir (path_join root filename) then
          get_files fs (path_join root filename) rest
            (dict_insert (strip_braces seg) filename kwargs)
        else [])
    else []
termination_by struct.length
decreasing_by
  all_goals simp only [List.length_cons]
  · omega
  · omega

/-- The `isinstance(root, list)` branch of `get_files`:
`return self.get_files(root[0], root[1:] + structure, **kwargs)`.  (On an empty
list `root[0]` would raise IndexError; its callers always pass a non-empty
list.) -/
def get_files_from_list (fs : FSModel) (roots : List String)
    (struct : List String) (kwargs : List (String × String)) :
    Except PyExc (List DirEntry) :=
  match roots with
  | [] => .error .indexError
  | r :: rs => .ok (get_files fs r (rs ++ struct) kwargs)

/-- HTTP verbs dispatched by `api_request`. -/
inductive HttpVerb where
  | get
  | post
  | delete
deriving DecidableEq

/-- The outbound request `api_request` hands to the `requests` library: the
verb and the target URL. -/
structure PreparedRequest where
  verb : HttpVerb
  url : String
deriving DecidableEq

/-- `Exchange.api_request` from exchange.py: builds the URL as
`service_url + path` and dispatches on the method string to `requests.get`,
`requests.post` or `requests.delete`; any other method raises
NotImplementedError before any network interaction. -/
def api_request (service_url path : String) (method : String) :
    Except PyExc PreparedRequest :=
  if method = "GET" then .ok ⟨.get, service_url ++ path⟩
  else if method = "POST" then .ok ⟨.post, service_url ++ path⟩
  else if method = "DELETE" then .ok ⟨.delete, service_url ++ path⟩
  else .error (.notImplementedError ("HTTP Method " ++ method ++ " is not implemented"))

/-- One part of a path-template segment: a literal character run or a `{name}`
placeholder.  This is the tagged-variant view of segments the spec's data model
describes ("each either a literal string or containing one or more `{name}`
placeholders"). -/
inductive TplPart where
  | lit (s : String)
  | ph (name : String)
deriving DecidableEq

/-- The concrete segment text of a template-part list. -/
def renderChars (ps : List TplPart) : List Char :=
  ps.flatMap (fun p =>
    match p with
    | .lit s => s.data
    | .ph n => '{' :: (n.data ++ '}' :: []))

/-- Whether a template-part list does not start with a placeholder. -/
def noPhHead : List TplPart → Bool
  | .ph _ :: _ => false
  | _ => true

/-- The placeholder names of a template-part list, in order, as character
lists. -/
def phNames (ps : List TplPart) : List (List Char) :=
  ps.filterMap (fun p =>
    match p with
    | .lit _ => none
    | .ph n => some n.data)

/-- Well-formedness of a placeholder name: non-empty, brace-free, free of the
`str.format` field punctuation `:` (format spec), `!` (conversion), `.`
(attribute) and `[` (index) — on which keyword lookup uses only the part of
the field before the punctuation — and not all digits (a positional field). -/
def wfName (n : String) : Bool :=
  !n.data.isEmpty && !n.data.contains '{' && !n.data.contains '}' &&
    !n.data.contains ':' && !n.data.contains '!' && !n.data.contains '.' &&
    !n.data.contains '[' && !n.data.all Char.isDigit

/-- Well-formedness of a template-part list: literal runs are non-empty and
brace-free, placeholder names are well-formed plain keyword names (see
`wfName`), and no placeholder directly follows another placeholder. -/
def wfPartsB : List TplPart → Bool
  | [] => true
  | .lit s :: rest =>
    !s.data.isEmpty && !s.data.contains '{' && !s.data.contains '}' && wfPartsB rest
  | .ph n :: rest => wfName n && wfPartsB rest && noPhHead rest

/-- The segment with every placeholder bound in `values` replaced by its value
and every other placeholder kept as the literal `{name}` token. -/
def substChars (values : List (String × String)) (ps : List TplPart) : List Char :=
  ps.flatMap (fun p =>
    match p with
    | .lit s => s.data
    | .ph n =>
      match List.lookup n values with
      | some v => v.data
      | none => '{' :: (n.data ++ '}' :: []))

/-- Modelled from the spec: the collect plugin is not among the sources here
(only its tests are).  Per spec steps (3)-(4) of Collect, an entry is
downloaded when no local copy exists; otherwise, with `update = false` the
local copy is never re-downloaded, and with `update = true` it is downloaded
exactly when the remote timestamp is strictly greater than the local
`timestamp.txt` one.  Timestamps are modelled as naturals.  The local state of
one student directory is `none` when no local copy exists and `some dir`
otherwise; the spec leaves a local copy without sidecar timestamp record open,
which is modelled as a download. -/
structure StudentDir where
  files : List String
  sidecar : Option Nat
deriving DecidableEq

/-- One entry of the remote `collections` listing together with the contents of
the `collection` archive the remote would serve for its path. -/
structure CollectEntry where
  path : String
  timestamp : Nat
  archiveFiles : List String
deriving DecidableEq

/-- Modelled from the spec: whether collect downloads the entry (see
`StudentDir`). -/
def collect_should_download (update : Bool) (localDir : Option StudentDir)
    (remoteTimestamp : Nat) : Bool :=
  match localDir with
  | none => true
  | some d =>
    if update = false then false
    else
      match d.sidecar with
      | some t => decide (t < remoteTimestamp)
      | none => true

/-- Modelled from the spec: processing one collect entry.  On download, spec
step (5) replaces the prior contents: the destination reflects exactly the
newly extracted archive contents plus the new timestamp record.  Returns the
new local state and whether the entry's archive was downloaded. -/
def collect_entry_step (update : Bool) (localDir : Option StudentDir)
    (e : CollectEntry) : Option StudentDir × Bool :=
  if collect_should_download update localDir e.timestamp then
    (some ⟨e.archiveFiles, some e.timestamp⟩, true)
  else (localDir, false)

/-- One remote manifest entry, as listed by the `assignments` endpoint.
Timestamps are modelled as naturals; `notebooks` keeps only the notebook ids. -/
structure RemoteManifestEntry where
  assignment_id : String
  status : String
  notebooks : List String
  timestamp : Nat
deriving DecidableEq

/-- Modelled from the spec: among the queried manifest entries, those matching
the assignment with status `released` (submit step (2)). -/
def released_for (assignment_id : String) (entries : List RemoteManifestEntry) :
    List RemoteManifestEntry :=
  entries.filter (fun e => e.assignment_id == assignment_id && e.status == "released")

/-- The first entry of `b :: l` whose timestamp reaches the maximum: a later
entry displaces the current champion only with a strictly greater timestamp. -/
def first_at_max (b : RemoteManifestEntry) : List RemoteManifestEntry → RemoteManifestEntry
  | [] => b
  | e :: l => if b.timestamp < e.timestamp then first_at_max e l else first_at_max b l

/-- Modelled from the spec: the submit plugin is not among the sources here
(only its tests are).  Submit step (2): among entries with status `released`
matching the assignment, select the one with the maximum timestamp, ties broken
by original ordering — first encountered at the maximum value wins. -/
def select_release (assignment_id : String) (entries : List RemoteManifestEntry) :
    Option RemoteManifestEntry :=
  match released_for assignment_id entries with
  | [] => none
  | e :: l => some (first_at_max e l)

/-- Outcome of the manifest validation (spec section 4.3). -/
inductive VOutcome where
  | isMatch
  | mismatch (missing extra : List String)
deriving DecidableEq

/-- Modelled from the spec: `validate` compares the local notebook-id set with
the manifest notebook-id set; `missing` are manifest ids absent locally,
`extra` are local ids absent from the manifest. -/
def validate (localIds manifestIds : List String) : VOutcome :=
  let missing := manifestIds.filter (fun n => decide (n ∉ localIds))
  let extra := localIds.filter (fun n => decide (n ∉ manifestIds))
  if missing.isEmpty && extra.isEmpty then .isMatch else .mismatch missing extra

/-- What a submit run reports: an optional non-fatal mismatch warning carrying
the missing and extra notebook ids, an optional fatal error message, and
whether the archive was posted to the remote. -/
structure SubmitOutcome where
  warning : Option (List String × List String)
  fatalError : Option String
  posted : Bool
deriving DecidableEq

/-- Modelled from the spec: the strict/lenient manifest-validation policy of
submit (spec section 4.3): on a mismatch, a lenient run warns with the missing
and extra ids and proceeds with the transfer; a strict run aborts with a fatal
error naming the assignment and posts nothing. -/
def submit_check (strict : Bool) (assignment_id : String)
    (localIds manifestIds : List String) : SubmitOutcome :=
  match validate localIds manifestIds with
  | .isMatch => ⟨none, none, true⟩
  | .mismatch missing extra =>
    if strict then
      ⟨none, some ("Assignment " ++ assignment_id ++ " not submitted"), false⟩
    else ⟨some (missing, extra), none, true⟩

/-- Whether a file name carries the `.ipynb` notebook extension. -/
def is_notebook (f : String) : Bool :=
  f.data.reverse.take 6 == ".ipynb".data.reverse

/-- The result of a fetch: the final listing of the destination directory and
the error raised, if any. -/
structure FetchResult where
  dirFiles : List String
  raised : Option String
deriving DecidableEq

/-- Modelled from the spec: the fetch plugin is not among the sources here
(only its tests are).  Fetch steps (3)-(4): if the destination directory exists
(`dest = some files`) and already holds one or more notebook files, fail with
the "already have notebook documents" error and write nothing; otherwise
create the destination if needed and extract the archive into it. -/
def fetch_into (dest : Option (List String)) (archiveFiles : List String) :
    FetchResult :=
  match dest with
  | some files =>
    if files.any is_notebook then
      ⟨files, some "already have notebook documents"⟩
    else ⟨files ++ archiveFiles, none⟩
  | none => ⟨archiveFiles, none⟩

/-! ## Theorems -/

theorem mem_rbrace_split {l : List Char} (h : '}' ∈ l) :
    ∃ t r, l = t ++ '}' :: r ∧ '}' ∉ t := by
  induction l with
  | nil => simp at h
  | cons c rest ih =>
    by_cases hc : c = '}'
    · exact ⟨[], rest, by simp [hc], by simp⟩
    · have hr : '}' ∈ rest := by
        rcases List.mem_cons.mp h with h1 | h1
        · exact absurd h1.symm hc
        · exact h1
      obtain ⟨t, r, heq, hnt⟩ := ih hr
      refine ⟨c :: t, r, by simp [heq], ?_⟩
      intro hmem
      rcases List.mem_cons.mp hmem with h1 | h1
      · exact hc h1.symm
      · exact hnt h1

theorem decomp_of_cfAux :
    ∀ (l : List Char) (b : Bool), cfAux b l = true →
      ∃ u v w, l = u ++ '{' :: (v ++ '}' :: w) ∧ v ≠ [] ∧ '}' ∉ v := by
  intro l
  induction l with
  | nil => intro b h; simp [cfAux] at h
  | cons c rest ih =>
    intro b h
    simp only [cfAux, Bool.or_eq_true] at h
    rcases h with h | h
    · simp only [Bool.and_eq_true, beq_iff_eq] at h
      obtain ⟨⟨hb, hc⟩, hbody⟩ := h
      subst hc
      cases rest with
      | nil => simp [cfBody] at hbody
      | cons c₁ r₁ =>
        simp only [cfBody, Bool.and_eq_true, bne_iff_ne] at hbody
        obtain ⟨hc₁, hmem⟩ := hbody
        have hmem₂ : '}' ∈ r₁ := by simpa using hmem
        obtain ⟨t, r, heq, hnt⟩ := mem_rbrace_split hmem₂
        refine ⟨[], c₁ :: t, r, by simp [heq], by simp, ?_⟩
        intro hin
        rcases List.mem_cons.mp hin with h1 | h1
        · exact hc₁ h1.symm
        · exact hnt h1
    · obtain ⟨u, v, w, heq, hv, hm⟩ := ih _ h
      exact ⟨c :: u, v, w, by simp [heq], hv, hm⟩

theorem normalize_decomp :
    ∀ (l₁ t l₂ : List Char), t ≠ [] → '}' ∉ t →
      ∃ u v w, l₁ ++ '{' :: (t ++ '}' :: l₂) = u ++ '{' :: (v ++ '}' :: w) ∧
        v ≠ [] ∧ '}' ∉ v ∧ (u = [] ∨ u.getLast? ≠ some '{') := by
  intro l₁
  induction l₁ using List.reverseRecOn with
  | nil =>
    intro t l₂ ht hm
    exact ⟨[], t, l₂, rfl, ht, hm, Or.inl rfl⟩
  | append_singleton l₁ c ih =>
    intro t l₂ ht hm
    by_cases hc : c = '{'
    · subst hc
      obtain ⟨u, v, w, heq, hv, hm₂, hgood⟩ := ih ('{' :: t) l₂ (by simp) (by
        intro hin
        rcases List.mem_cons.mp hin with h1 | h1
        · exact absurd h1 (by decide)
        · exact hm h1)
      refine ⟨u, v, w, ?_, hv, hm₂, hgood⟩
      rw [← heq]
      simp [List.append_assoc]
    · refine ⟨l₁ ++ [c], t, l₂, rfl, ht, hm, Or.inr ?_⟩
      rw [List.getLast?_concat]
      simp [hc]

theorem cfAux_of_decomp :
    ∀ (u : List Char) (b : Bool) (v w : List Char), v ≠ [] → '}' ∉ v →
      (u = [] → b = true) → (u = [] ∨ u.getLast? ≠ some '{') →
      cfAux b (u ++ '{' :: (v ++ '}' :: w)) = true := by
  intro u
  induction u with
  | nil =>
    intro b v w hv hm hb _
    rw [List.nil_append]
    have hb₂ := hb rfl
    subst hb₂
    cases v with
    | nil => exact absurd rfl hv
    | cons c v₁ =>
      simp only [cfAux, List.cons_append, Bool.or_eq_true]
      left
      simp only [Bool.and_eq_true, beq_iff_eq]
      refine ⟨⟨by trivial, by trivial⟩, ?_⟩
      simp only [cfBody, Bool.and_eq_true, bne_iff_ne]
      constructor
      · intro hcc
        exact hm (by simp [hcc])
      · simp
  | cons c u₁ ih =>
    intro b v w hv hm hb hgood
    simp only [List.cons_append, cfAux, Bool.or_eq_true]
    right
    apply ih (c != '{') v w hv hm
    · intro hu
      subst hu
      rcases hgood with h | h
      · exact absurd h (by simp)
      · simp only [List.getLast?_singleton, ne_eq, Option.some.injEq] at h
        simpa using h
    · rcases hgood with h | h
      · exact absurd h (by simp)
      · cases u₁ with
        | nil => exact Or.inl rfl
        | cons d u₂ =>
          right
          rw [List.getLast?_cons_cons] at h
          exact h

/-- C8 counterexample: the segment `{{a}}`, whose only braces form a literal
`{{...}}`-style escape, nevertheless satisfies `contains_format` — the claim
says such a segment yields false. -/
theorem contains_format_escape_counterexample :
    contains_format "\x7b\x7ba\x7d\x7d" = true := by decide

/-- C8 amended: `contains_format` is true iff the segment contains a `{`
followed, after one or more intervening non-`}` characters, by a `}` (a
substring `{v}` with `v` non-empty and free of `}`).  The literal
`{{`-escape exclusion claimed does not hold: the pattern's preceding-character
guard `([^{]|^)` is always satisfiable at the start of a brace run, so the
braces of a `{{...}}` escape do count. -/
theorem contains_format_iff (s : String) :
    contains_format s = true ↔
      ∃ u v w, s.data = u ++ '{' :: (v ++ '}' :: w) ∧ v ≠ [] ∧ '}' ∉ v := by
  constructor
  · exact fun h => decomp_of_cfAux s.data true h
  · rintro ⟨u, v, w, heq, hv, hm⟩
    obtain ⟨u₁, v₁, w₁, heq₁, hv₁, hm₁, hgood⟩ := normalize_decomp u v w hv hm
    unfold contains_format
    rw [heq, heq₁]
    exact cfAux_of_decomp u₁ true v₁ w₁ hv₁ hm₁ (fun _ => rfl) hgood

/-- C10: for every HTTP method string other than "GET", "POST" and "DELETE",
`api_request` raises a NotImplementedError naming the method and performs no
network call; for the three supported methods it dispatches to the
corresponding HTTP verb against the service URL joined with the given path. -/
theorem api_request_dispatch (su p m : String)
    (h : m ≠ "GET" ∧ m ≠ "POST" ∧ m ≠ "DELETE") :
    api_request su p m =
      .error (.notImplementedError ("HTTP Method " ++ m ++ " is not implemented")) ∧
    api_request su p "GET" = .ok ⟨.get, su ++ p⟩ ∧
    api_request su p "POST" = .ok ⟨.post, su ++ p⟩ ∧
    api_request su p "DELETE" = .ok ⟨.delete, su ++ p⟩ := by
  obtain ⟨h1, h2, h3⟩ := h
  refine ⟨?_, rfl, rfl, rfl⟩
  simp [api_request, h1, h2, h3]

/-- Witness for `api_request_dispatch`, at the unsupported method "PUT". -/
theorem api_request_dispatch_witness :
    api_request "https://s/services/nbexchange/" "assignments" "PUT" =
      .error (.notImplementedError ("HTTP Method " ++ "PUT" ++ " is not implemented")) ∧
    api_request "https://s/services/nbexchange/" "assignments" "GET" =
      .ok ⟨.get, "https://s/services/nbexchange/" ++ "assignments"⟩ := by
  have h := api_request_dispatch "https://s/services/nbexchange/" "assignments" "PUT"
    ⟨by decide, by decide, by decide⟩
  exact ⟨h.1, h.2.1⟩

/-- C1: collect conflict resolution — with a remote entry of timestamp T2 and a
local copy with sidecar timestamp T (or no local copy), the entry is downloaded
and the local copy overwritten iff `update = true ∧ T < T2` or no local copy
exists; otherwise (T2 ≤ T, or `update = false`) the local copy is left
untouched and the entry's archive is not downloaded. -/
theorem collect_conflict_resolution (update : Bool) (localDir : Option StudentDir)
    (e : CollectEntry)
    (hcov : localDir = none ∨ ∃ fs t, localDir = some ⟨fs, some t⟩) :
    ((collect_entry_step update localDir e).2 = true ↔
      localDir = none ∨
        (update = true ∧ ∃ fs t, localDir = some ⟨fs, some t⟩ ∧ t < e.timestamp)) ∧
    ((collect_entry_step update localDir e).2 = false →
      collect_entry_step update localDir e = (localDir, false)) ∧
    ((collect_entry_step update localDir e).2 = true →
      collect_entry_step update localDir e =
        (some ⟨e.archiveFiles, some e.timestamp⟩, true)) := by
  refine ⟨?_, ?_, ?_⟩
  · rcases hcov with h | ⟨fs, t, h⟩ <;> subst h
    · simp [collect_entry_step, collect_should_download]
    · cases update with
      | false => simp [collect_entry_step, collect_should_download]
      | true =>
        by_cases ht : t < e.timestamp
        · have hsd : collect_should_download true (some ⟨fs, some t⟩) e.timestamp
              = true := by
            simp [collect_should_download, ht]
          simp only [collect_entry_step]
          rw [if_pos hsd]
          constructor
          · intro _
            exact Or.inr ⟨by trivial, fs, t, rfl, ht⟩
          · intro _
            rfl
        · have hsd : collect_should_download true (some ⟨fs, some t⟩) e.timestamp
              = false := by
            simp [collect_should_download, ht]
          simp only [collect_entry_step]
          rw [if_neg (by simp [hsd])]
          constructor
          · intro hcontra
            exact absurd hcontra (by simp)
          · rintro (hnone | ⟨-, fs₂, t₂, heq, hlt⟩)
            · exact absurd hnone (by simp)
            · simp only [Option.some.injEq, StudentDir.mk.injEq] at heq
              obtain ⟨-, ht2⟩ := heq
              exact absurd (ht2 ▸ hlt) ht
  · intro h
    simp only [collect_entry_step] at h ⊢
    by_cases hd : collect_should_download update localDir e.timestamp = true
    · simp [hd] at h
    · simp only [Bool.not_eq_true] at hd
      simp [hd]
  · intro h
    simp only [collect_entry_step] at h ⊢
    by_cases hd : collect_should_download update localDir e.timestamp = true
    · simp [hd]
    · simp only [Bool.not_eq_true] at hd
      simp [hd] at h

/-- Witness for `collect_conflict_resolution`: with update enabled, an equal
remote timestamp leaves the local copy untouched, and a strictly newer one
downloads. -/
theorem collect_conflict_resolution_witness :
    collect_entry_step true (some ⟨["a.ipynb"], some 5⟩) ⟨"/p", 5, ["b.ipynb"]⟩ =
      (some ⟨["a.ipynb"], some 5⟩, false) ∧
    (collect_entry_step true (some ⟨["a.ipynb"], some 4⟩) ⟨"/p", 7, ["b.ipynb"]⟩).2 =
      true := by
  constructor
  · exact (collect_conflict_resolution true (some ⟨["a.ipynb"], some 5⟩)
      ⟨"/p", 5, ["b.ipynb"]⟩ (Or.inr ⟨["a.ipynb"], 5, rfl⟩)).2.1 (by decide)
  · exact (collect_conflict_resolution true (some ⟨["a.ipynb"], some 4⟩)
      ⟨"/p", 7, ["b.ipynb"]⟩ (Or.inr ⟨["a.ipynb"], 4, rfl⟩)).1.mpr
      (Or.inr ⟨rfl, ["a.ipynb"], 4, rfl, by decide⟩)

theorem first_at_max_mem (b : RemoteManifestEntry) (l : List RemoteManifestEntry) :
    first_at_max b l ∈ b :: l := by
  induction l generalizing b with
  | nil => simp [first_at_max]
  | cons e l ih =>
    simp only [first_at_max]
    by_cases hb : b.timestamp < e.timestamp
    · rw [if_pos hb]
      have := ih e
      simp only [List.mem_cons] at this ⊢
      tauto
    · rw [if_neg hb]
      have := ih b
      simp only [List.mem_cons] at this ⊢
      tauto

theorem first_at_max_ge (b : RemoteManifestEntry) (l : List RemoteManifestEntry) :
    ∀ x ∈ b :: l, x.timestamp ≤ (first_at_max b l).timestamp := by
  induction l generalizing b with
  | nil => simp [first_at_max]
  | cons e l ih =>
    intro x hx
    simp only [List.mem_cons] at hx
    simp only [first_at_max]
    by_cases hb : b.timestamp < e.timestamp
    · rw [if_pos hb]
      rcases hx with h | h | h
      · subst h
        exact le_of_lt (lt_of_lt_of_le hb (ih e e (by simp)))
      · exact ih e x (by simp [h])
      · exact ih e x (by simp [h])
    · rw [if_neg hb]
      rcases hx with h | h | h
      · exact ih b x (by simp [h])
      · subst h
        exact le_trans (le_of_not_lt hb) (ih b b (by simp))
      · exact ih b x (by simp [h])

theorem first_at_max_first (b : RemoteManifestEntry) (l : List RemoteManifestEntry) :
    ∃ l₁ l₂, b :: l = l₁ ++ (first_at_max b l) :: l₂ ∧
      ∀ x ∈ l₁, x.timestamp < (first_at_max b l).timestamp := by
  induction l generalizing b with
  | nil => exact ⟨[], [], by simp [first_at_max], by simp⟩
  | cons e l ih =>
    simp only [first_at_max]
    by_cases hb : b.timestamp < e.timestamp
    · rw [if_pos hb]
      obtain ⟨l₁, l₂, heq, hlt⟩ := ih e
      refine ⟨b :: l₁, l₂, by simp [heq], ?_⟩
      intro x hx
      simp only [List.mem_cons] at hx
      rcases hx with h | h
      · subst h
        exact lt_of_lt_of_le hb (first_at_max_ge e l e (by simp))
      · exact hlt x h
    · rw [if_neg hb]
      obtain ⟨l₁, l₂, heq, hlt⟩ := ih b
      cases l₁ with
      | nil =>
        simp only [List.nil_append, List.cons.injEq] at heq
        refine ⟨[], e :: l, ?_, by simp⟩
        simp only [List.nil_append]
        rw [← heq.1]
      | cons y l₁ =>
        simp only [List.cons_append, List.cons.injEq] at heq
        obtain ⟨hy, htail⟩ := heq
        subst hy
        refine ⟨b :: e :: l₁, l₂, ?_, ?_⟩
        · conv_lhs => rw [htail]
          simp only [List.cons_append]
        intro x hx
        simp only [List.mem_cons] at hx
        have hblt : b.timestamp < (first_at_max b l).timestamp :=
          hlt b (by simp)
        rcases hx with h | h | h
        · subst h; exact hblt
        · subst h; exact lt_of_le_of_lt (le_of_not_lt hb) hblt
        · exact hlt x (by simp [h])

/-- C2: submit release selection — the selected entry is a released entry of
the assignment carrying the maximum timestamp among them, whatever the order of
the manifest list, and it is the first entry encountered at that maximum value
(all released entries listed before it are strictly older). -/
theorem select_release_spec (aid : String) (entries : List RemoteManifestEntry)
    (e : RemoteManifestEntry) (h : select_release aid entries = some e) :
    e ∈ entries ∧ e.assignment_id = aid ∧ e.status = "released" ∧
    (∀ x ∈ entries, x.assignment_id = aid → x.status = "released" →
      x.timestamp ≤ e.timestamp) ∧
    (∃ l₁ l₂, released_for aid entries = l₁ ++ e :: l₂ ∧
      ∀ x ∈ l₁, x.timestamp < e.timestamp) := by
  simp only [select_release] at h
  cases hrf : released_for aid entries with
  | nil => rw [hrf] at h; exact absurd h (by simp)
  | cons b l =>
    rw [hrf] at h
    simp only [Option.some.injEq] at h
    subst h
    have hmem : first_at_max b l ∈ b :: l := first_at_max_mem b l
    have hsub : first_at_max b l ∈ released_for aid entries := by rw [hrf]; exact hmem
    have hfil := List.mem_filter.mp (by
      simpa only [released_for] using hsub)
    obtain ⟨hent, hcond⟩ := hfil
    simp only [Bool.and_eq_true, beq_iff_eq] at hcond
    refine ⟨hent, hcond.1, hcond.2, ?_, ?_⟩
    · intro x hx hxa hxs
      have hxf : x ∈ released_for aid entries := by
        simp only [released_for]
        exact List.mem_filter.mpr ⟨hx, by simp [hxa, hxs]⟩
      rw [hrf] at hxf
      exact first_at_max_ge b l x hxf
    · obtain ⟨l₁, l₂, heq, hlt⟩ := first_at_max_first b l
      exact ⟨l₁, l₂, heq, hlt⟩

/-- Witness for `select_release_spec`: two released entries with timestamps
1 < 2, newest listed first; the newest is selected. -/
theorem select_release_spec_witness :
    (⟨"a1", "released", ["n2"], 2⟩ : RemoteManifestEntry) ∈
      [(⟨"a1", "released", ["n2"], 2⟩ : RemoteManifestEntry),
       ⟨"a1", "released", ["n1"], 1⟩] ∧
    (∀ x ∈ [(⟨"a1", "released", ["n2"], 2⟩ : RemoteManifestEntry),
            ⟨"a1", "released", ["n1"], 1⟩],
      x.assignment_id = "a1" → x.status = "released" →
        x.timestamp ≤ (2 : Nat)) := by
  have h := select_release_spec "a1"
    [⟨"a1", "released", ["n2"], 2⟩, ⟨"a1", "released", ["n1"], 1⟩]
    ⟨"a1", "released", ["n2"], 2⟩ (by decide)
  exact ⟨h.1, h.2.2.2.1⟩

/-- C5: manifest validation policy — when the local notebook-id set differs
from the selected release's manifest notebook-id set, a non-strict submit warns
with the missing and extra notebook ids and still posts the archive, while a
strict submit aborts with a fatal error naming the assignment and posts
nothing. -/
theorem manifest_mismatch_policy (assignment_id : String)
    (localIds manifestIds : List String)
    (h : ¬ ∀ n, n ∈ localIds ↔ n ∈ manifestIds) :
    submit_check false assignment_id localIds manifestIds =
      ⟨some (manifestIds.filter (fun n => decide (n ∉ localIds)),
             localIds.filter (fun n => decide (n ∉ manifestIds))), none, true⟩ ∧
    submit_check true assignment_id localIds manifestIds =
      ⟨none, some ("Assignment " ++ assignment_id ++ " not submitted"), false⟩ := by
  have hcond : (((manifestIds.filter (fun n => decide (n ∉ localIds))).isEmpty &&
      (localIds.filter (fun n => decide (n ∉ manifestIds))).isEmpty) = true) → False := by
    intro hc
    simp only [Bool.and_eq_true, List.isEmpty_iff] at hc
    obtain ⟨hm, he⟩ := hc
    apply h
    intro n
    constructor
    · intro hn
      by_contra hnm
      have hmem : n ∈ localIds.filter (fun n => decide (n ∉ manifestIds)) :=
        List.mem_filter.mpr ⟨hn, by simpa using hnm⟩
      rw [he] at hmem
      simp at hmem
    · intro hn
      by_contra hnl
      have hmem : n ∈ manifestIds.filter (fun n => decide (n ∉ localIds)) :=
        List.mem_filter.mpr ⟨hn, by simpa using hnl⟩
      rw [hm] at hmem
      simp at hmem
  have hval : validate localIds manifestIds =
      .mismatch (manifestIds.filter (fun n => decide (n ∉ localIds)))
        (localIds.filter (fun n => decide (n ∉ manifestIds))) := by
    simp only [validate]
    rw [if_neg (by intro hc; exact hcond hc)]
  constructor <;> simp [submit_check, hval]

/-- Witness for `manifest_mismatch_policy`: local ids {a} against manifest
{a, b}. -/
theorem manifest_mismatch_policy_witness :
    submit_check false "assign_1" ["a"] ["a", "b"] =
      ⟨some (["b"], []), none, true⟩ ∧
    submit_check true "assign_1" ["a"] ["a", "b"] =
      ⟨none, some ("Assignment " ++ "assign_1" ++ " not submitted"), false⟩ := by
  have h := manifest_mismatch_policy "assign_1" ["a"] ["a", "b"] (by
    intro hc
    have := (hc "b").mpr (by simp)
    simp at this)
  constructor
  · have h1 := h.1
    simpa using h1
  · exact h.2

/-- C6: fetch conflict — when the fetch destination directory exists and
already contains at least one notebook file, the operation fails with the
"already have notebook documents" error, the pre-existing files are unchanged
and none of the archive's contents are written. -/
theorem fetch_existing_notebooks (files archiveFiles : List String)
    (h : ∃ f ∈ files, is_notebook f = true) :
    fetch_into (some files) archiveFiles =
      ⟨files, some "already have notebook documents"⟩ := by
  simp only [fetch_into]
  rw [if_pos]
  exact List.any_eq_true.mpr h

/-- Witness for `fetch_existing_notebooks`: a destination already holding
`foo.ipynb`. -/
theorem fetch_existing_notebooks_witness :
    fetch_into (some ["foo.ipynb"]) ["assignment-0.6.ipynb", "timestamp.txt"] =
      ⟨["foo.ipynb"], some "already have notebook documents"⟩ := by
  exact fetch_existing_notebooks ["foo.ipynb"] ["assignment-0.6.ipynb", "timestamp.txt"]
    ⟨"foo.ipynb", by simp, by decide⟩

/-- C4: for every root that does not exist on a filesystem in which absence is
hereditary (a missing path has no children and is not a directory), `get_files`
returns the empty list at every recursion depth — whether the remaining
template structure is empty, starts with a literal segment, or starts with a
placeholder segment — and, being total, raises nothing. -/
theorem get_files_missing_root (fs : FSModel)
    (hclosed : ∀ p s, fs.pathExists p = false → fs.pathExists (path_join p s) = false)
    (hdir : ∀ p, fs.pathExists p = false → fs.isDir p = false)
    (root : String) (struct : List String) (kwargs : List (String × String))
    (hroot : fs.pathExists root = false) :
    get_files fs root struct kwargs = [] := by
  induction struct generalizing root kwargs with
  | nil =>
    rw [get_files]
    simp [hdir root hroot]
  | cons seg rest ih =>
    rw [get_files]
    by_cases hcf : contains_format seg = true
    · simp [hcf, hroot]
    · simp only [Bool.not_eq_true] at hcf
      simp only [hcf, Bool.not_false, if_pos]
      exact ih (path_join root seg) kwargs (hclosed root seg hroot)

/-- Witness for `get_files_missing_root`: the empty filesystem, a literal and a
placeholder segment remaining. -/
theorem get_files_missing_root_witness :
    get_files ⟨fun _ => false, fun _ => false, fun _ => []⟩ "submitted"
      ["{student_id}", "assign_1"] [] = [] := by
  exact get_files_missing_root ⟨fun _ => false, fun _ => false, fun _ => []⟩
    (fun _ _ _ => rfl) (fun _ _ => rfl) "submitted" ["{student_id}", "assign_1"] []
    rfl

/-- C7 counterexample: the malformed segment `a{b` (unmatched brace) makes
`maybe_format` raise ValueError instead of returning the segment unchanged
without exception. -/
theorem maybe_format_malformed_counterexample :
    maybe_format "a\x7bb" [] = .error .valueError := rfl

/-- C7 amended: `maybe_format` catches only KeyError — when `str.format` fails
on a missing field key the original segment is returned unchanged — while a
malformed segment with unmatched braces makes `str.format` raise ValueError,
which propagates out of `maybe_format` (the segment `a{b` raises for every
binding map). -/
theorem maybe_format_error_policy :
    (∀ values, maybe_format "a\x7bb" values = .error .valueError) ∧
    (∀ s values k, pyFormat (mf_map s values) .scan s.data = .error (.keyError k) →
      maybe_format s values = .ok s) := by
  constructor
  · intro values
    rfl
  · intro s values k h
    simp only [maybe_format, h]

/-- Witness for `maybe_format_error_policy`: the KeyError raised on `{a}{b}`
with no bindings is caught, returning the segment unchanged, while `a{b`
raises ValueError. -/
theorem maybe_format_error_policy_witness :
    maybe_format "\x7ba\x7d\x7bb\x7d" [] = .ok "\x7ba\x7d\x7bb\x7d" ∧
    maybe_format "a\x7bb" [] = .error .valueError :=
  ⟨maybe_format_error_policy.2 "\x7ba\x7d\x7bb\x7d" [] "b" rfl,
    maybe_format_error_policy.1 []⟩

/-- C3 counterexample: in the segment `{a}{b}` with only `a` bound, the key
extraction misses `b` (its `{` directly follows the previous match's `}`),
`str.format` fails with KeyError on `b`, and `maybe_format` returns the whole
segment unchanged — the bound placeholder `a` is NOT substituted, against the
claim that exactly the bound names are substituted. -/
theorem maybe_format_adjacent_counterexample :
    maybe_format "\x7ba\x7d\x7bb\x7d" [("a", "x")] = .ok "\x7ba\x7d\x7bb\x7d" ∧
    "\x7ba\x7d\x7bb\x7d" ≠ "x\x7bb\x7d" :=
  ⟨rfl, by decide⟩

theorem fkAux_scan_lit :
    ∀ (s : List Char) (b : Bool) (r : List Char), '{' ∉ s → s ≠ [] →
      fkAux none b (s ++ r) = fkAux none true r := by
  intro s
  induction s with
  | nil => intro b r hnb hne; exact absurd rfl hne
  | cons c s ih =>
    intro b r hnb hne
    have hc : c ≠ '{' := fun hcc => hnb (by simp [hcc])
    have hstep : fkAux none b ((c :: s) ++ r) = fkAux none (c != '{') (s ++ r) := by
      simp only [List.cons_append, fkAux]
      rw [if_neg (by simp [hc])]
      rfl
    rw [hstep]
    have hcb : (c != '{') = true := by simp [hc]
    rw [hcb]
    cases s with
    | nil => rfl
    | cons d s₂ =>
      exact ih true r (fun hm => hnb (by simp [hm])) (by simp)

theorem fkAux_key :
    ∀ (n acc : List Char) (b : Bool) (r : List Char), '}' ∉ n →
      (acc ≠ [] ∨ n ≠ []) →
      fkAux (some acc) b (n ++ '}' :: r) =
        (acc.reverse ++ n) :: fkAux none false r := by
  intro n
  induction n with
  | nil =>
    intro acc b r hnb hne
    have hacc : acc ≠ [] := by
      rcases hne with h | h
      · exact h
      · exact absurd rfl h
    simp only [List.nil_append, fkAux]
    rw [if_pos (by simp)]
    rw [if_neg (by simpa using hacc)]
    simp
  | cons c n ih =>
    intro acc b r hnb hne
    have hc : c ≠ '}' := fun hcc => hnb (by simp [hcc])
    simp only [List.cons_append, fkAux]
    rw [if_neg (by simp [hc])]
    have hih := ih (c :: acc) false r (fun hm => hnb (by simp [hm])) (Or.inl (by simp))
    simp only [List.reverse_cons, List.append_assoc, List.singleton_append] at hih
    exact hih

theorem fk_render :
    ∀ ps : List TplPart, wfPartsB ps = true →
      (fkAux none true (renderChars ps) = phNames ps) ∧
      (noPhHead ps = true → ∀ b, fkAux none b (renderChars ps) = phNames ps) := by
  intro ps
  induction ps with
  | nil =>
    intro h
    exact ⟨rfl, fun _ b => rfl⟩
  | cons p rest ih =>
    intro h
    cases p with
    | lit s =>
      simp only [wfPartsB, Bool.and_eq_true] at h
      obtain ⟨⟨⟨hne, hnb⟩, hnb2⟩, hwf⟩ := h
      have hne₂ : s.data ≠ [] := by simpa using hne
      have hnb₂ : '{' ∉ s.data := by simpa using hnb
      have key : ∀ b, fkAux none b (renderChars (.lit s :: rest)) = phNames rest := by
        intro b
        have e1 : renderChars (.lit s :: rest) = s.data ++ renderChars rest := rfl
        rw [e1, fkAux_scan_lit s.data b (renderChars rest) hnb₂ hne₂]
        exact (ih hwf).1
      refine ⟨?_, ?_⟩
      · rw [key true]
        simp [phNames]
      · intro _ b
        rw [key b]
        simp [phNames]
    | ph n =>
      simp only [wfPartsB, Bool.and_eq_true] at h
      obtain ⟨⟨hwfn, hwf⟩, hnph⟩ := h
      simp only [wfName, Bool.and_eq_true] at hwfn
      obtain ⟨⟨⟨⟨⟨⟨⟨hne, hnlb⟩, hnrb⟩, hcol⟩, hbang⟩, hdot⟩, hbr⟩, hnd⟩ := hwfn
      have hne₂ : n.data ≠ [] := by simpa using hne
      have hnrb₂ : '}' ∉ n.data := by simpa using hnrb
      have e1 : renderChars (.ph n :: rest) =
          '{' :: (n.data ++ '}' :: renderChars rest) := by
        simp [renderChars, List.append_assoc]
      constructor
      · rw [e1]
        simp only [fkAux]
        rw [if_pos (by simp)]
        rw [fkAux_key n.data [] false (renderChars rest) hnrb₂ (Or.inr hne₂)]
        simp only [List.reverse_nil, List.nil_append]
        rw [(ih hwf).2 hnph false]
        simp [phNames]
      · intro hcontra b
        exact absurd hcontra (by simp [noPhHead])

theorem splitAtFirst_none (p : Char → Bool) :
    ∀ l : List Char, (∀ c ∈ l, p c = false) → splitAtFirst p l = (l, []) := by
  intro l
  induction l with
  | nil => intro h; rfl
  | cons c l ih =>
    intro h
    simp only [splitAtFirst]
    rw [if_neg (by simp [h c (by simp)])]
    rw [ih (fun d hd => h d (by simp [hd]))]

theorem pyFormat_lit :
    ∀ (s : List Char) (m : List (String × String)) (r : List Char),
      '{' ∉ s → '}' ∉ s →
      pyFormat m .scan (s ++ r) = (pyFormat m .scan r).map (fun out => s ++ out) := by
  intro s
  induction s with
  | nil =>
    intro m r h1 h2
    simp only [List.nil_append]
    cases pyFormat m .scan r <;> rfl
  | cons c s ih =>
    intro m r h1 h2
    have hc1 : c ≠ '{' := fun h => h1 (by simp [h])
    have hc2 : c ≠ '}' := fun h => h2 (by simp [h])
    simp only [List.cons_append, pyFormat]
    rw [if_neg (by simp [hc1]), if_neg (by simp [hc2])]
    show (pyFormat m .scan (s ++ r)).map (fun out => c :: out) =
      (pyFormat m .scan r).map (fun out => (c :: s) ++ out)
    rw [ih m r (fun h => h1 (by simp [h])) (fun h => h2 (by simp [h]))]
    cases pyFormat m .scan r <;> rfl

theorem pyFormat_field :
    ∀ (n acc : List Char) (m : List (String × String)) (r : List Char) (v : String),
      '}' ∉ n → '{' ∉ n →
      (∀ c ∈ acc.reverse ++ n, ((c == '!') || (c == ':')) = false) →
      (∀ c ∈ acc.reverse ++ n, ((c == '.') || (c == '[')) = false) →
      acc.reverse ++ n ≠ [] →
      ¬((acc.reverse ++ n).all Char.isDigit = true) →
      List.lookup (String.mk (acc.reverse ++ n)) m = some v →
      pyFormat m (.inField acc) (n ++ '}' :: r) =
        (pyFormat m .scan r).map (fun out => v.data ++ out) := by
  intro n
  induction n with
  | nil =>
    intro acc m r v h1 h2 hp1 hp2 hne hnd hl
    rw [List.append_nil] at hp1 hp2 hne hnd hl
    simp only [List.nil_append, pyFormat]
    rw [if_pos (by simp)]
    rw [splitAtFirst_none _ acc.reverse hp1]
    rw [splitAtFirst_none _ acc.reverse hp2]
    rw [if_neg (by
      simp only [Bool.or_eq_true, not_or]
      exact ⟨by simpa using hne, hnd⟩)]
    rw [hl]
    simp
  | cons c n ih =>
    intro acc m r v h1 h2 hp1 hp2 hne hnd hl
    have hc1 : c ≠ '}' := fun h => h1 (by simp [h])
    have hc2 : c ≠ '{' := fun h => h2 (by simp [h])
    have hEq : (c :: acc).reverse ++ n = acc.reverse ++ (c :: n) := by
      simp
    simp only [List.cons_append, pyFormat]
    rw [if_neg (by simp [hc1]), if_neg (by simp [hc2])]
    have hih := ih (c :: acc) m r v (fun h => h1 (by simp [h])) (fun h => h2 (by simp [h]))
      (by rw [hEq]; exact hp1) (by rw [hEq]; exact hp2)
      (by rw [hEq]; exact hne) (by rw [hEq]; exact hnd) (by rw [hEq]; exact hl)
    exact hih

theorem pyFormat_render (f : String → String) :
    ∀ (ps : List TplPart) (m : List (String × String)), wfPartsB ps = true →
      (∀ n, TplPart.ph n ∈ ps → List.lookup n m = some (f n)) →
      pyFormat m .scan (renderChars ps) =
        .ok (ps.flatMap (fun p =>
          match p with
          | .lit s => s.data
          | .ph n => (f n).data)) := by
  intro ps
  induction ps with
  | nil => intro m h hf; rfl
  | cons p rest ih =>
    intro m h hf
    cases p with
    | lit s =>
      simp only [wfPartsB, Bool.and_eq_true] at h
      obtain ⟨⟨⟨hne, hlb⟩, hrb⟩, hwf⟩ := h
      have e1 : renderChars (.lit s :: rest) = s.data ++ renderChars rest := rfl
      rw [e1, pyFormat_lit s.data m (renderChars rest)
        (by simpa using hlb) (by simpa using hrb)]
      rw [ih m hwf (fun n hn => hf n (by simp [hn]))]
      rfl
    | ph n =>
      simp only [wfPartsB, Bool.and_eq_true] at h
      obtain ⟨⟨hwfn, hwf⟩, hnph⟩ := h
      simp only [wfName, Bool.and_eq_true] at hwfn
      obtain ⟨⟨⟨⟨⟨⟨⟨hne, hnlb⟩, hnrb⟩, hcol⟩, hbang⟩, hdot⟩, hbr⟩, hnd⟩ := hwfn
      have hne₂ : n.data ≠ [] := by simpa using hne
      have hnlb₂ : '{' ∉ n.data := by simpa using hnlb
      have hnrb₂ : '}' ∉ n.data := by simpa using hnrb
      have hcol₂ : ':' ∉ n.data := by simpa using hcol
      have hbang₂ : '!' ∉ n.data := by simpa using hbang
      have hdot₂ : '.' ∉ n.data := by simpa using hdot
      have hbr₂ : '[' ∉ n.data := by simpa using hbr
      have e1 : renderChars (.ph n :: rest) =
          '{' :: (n.data ++ '}' :: renderChars rest) := by
        simp [renderChars, List.append_assoc]
      rw [e1]
      cases hnd2 : n.data with
      | nil => exact absurd hnd2 hne₂
      | cons c₂ n₂ =>
        have hc₂l : c₂ ≠ '{' := by
          intro hcc
          exact hnlb₂ (by rw [hnd2, hcc]; simp)
        have hc₂r : c₂ ≠ '}' := by
          intro hcc
          exact hnrb₂ (by rw [hnd2, hcc]; simp)
        have estep : pyFormat m .scan ('{' :: ((c₂ :: n₂) ++ '}' :: renderChars rest)) =
            pyFormat m .openBrace ((c₂ :: n₂) ++ '}' :: renderChars rest) := by
          simp only [pyFormat]
          rw [if_pos (by simp)]
        rw [estep]
        simp only [List.cons_append, pyFormat]
        rw [if_neg (by simp [hc₂l]), if_neg (by simp [hc₂r])]
        show pyFormat m (.inField [c₂]) (n₂ ++ '}' :: renderChars rest) = _
        have hkey : String.mk ([c₂].reverse ++ n₂) = n := by
          simp only [List.reverse_singleton, List.singleton_append]
          rw [← hnd2]
        rw [pyFormat_field n₂ [c₂] m (renderChars rest) (f n)
          (fun hm₂ => hnrb₂ (by rw [hnd2]; simp [hm₂]))
          (fun hm₂ => hnlb₂ (by rw [hnd2]; simp [hm₂]))
          (by
            intro c hc
            have hcm : c ∈ n.data := by
              rw [hnd2]
              simpa using hc
            have hb1 : c ≠ '!' := fun hcc => hbang₂ (hcc ▸ hcm)
            have hb2 : c ≠ ':' := fun hcc => hcol₂ (hcc ▸ hcm)
            simp [hb1, hb2])
          (by
            intro c hc
            have hcm : c ∈ n.data := by
              rw [hnd2]
              simpa using hc
            have hb1 : c ≠ '.' := fun hcc => hdot₂ (hcc ▸ hcm)
            have hb2 : c ≠ '[' := fun hcc => hbr₂ (hcc ▸ hcm)
            simp [hb1, hb2])
          (by simp only [List.reverse_singleton, List.singleton_append]
              rw [← hnd2]; exact hne₂)
          (by simp only [List.reverse_singleton, List.singleton_append]
              rw [← hnd2]; simpa using hnd)
          (by rw [hkey]; exact hf n (by simp))]
        rw [ih m hwf (fun nm hnm => hf nm (by simp [hnm]))]
        rfl

theorem lookup_append_left {n : String} {l₁ l₂ : List (String × String)} {v : String}
    (h : List.lookup n l₁ = some v) : List.lookup n (l₁ ++ l₂) = some v := by
  induction l₁ with
  | nil => simp [List.lookup] at h
  | cons p l₁ ih =>
    obtain ⟨k, w⟩ := p
    by_cases hk : n = k
    · subst hk
      simp [List.lookup] at h ⊢
      exact h
    · simp only [List.lookup, List.cons_append] at h ⊢
      rw [show (n == k) = false by simpa using hk] at h ⊢
      exact ih h

theorem lookup_append_right {n : String} {l₁ l₂ : List (String × String)}
    (h : List.lookup n l₁ = none) : List.lookup n (l₁ ++ l₂) = List.lookup n l₂ := by
  induction l₁ with
  | nil => rfl
  | cons p l₁ ih =>
    obtain ⟨k, w⟩ := p
    by_cases hk : n = k
    · subst hk
      simp [List.lookup] at h
    · simp only [List.lookup, List.cons_append] at h ⊢
      rw [show (n == k) = false by simpa using hk] at h ⊢
      exact ih h

theorem lookup_map_keys (g : String → String) :
    ∀ (l : List String) (n : String),
      List.lookup n (l.map (fun x => (x, g x))) =
        if n ∈ l then some (g n) else none := by
  intro l
  induction l with
  | nil => intro n; simp [List.lookup]
  | cons x l ih =>
    intro n
    by_cases hx : n = x
    · subst hx
      simp [List.lookup]
    · simp only [List.map_cons, List.lookup]
      rw [show (n == x) = false by simpa using hx]
      rw [ih n]
      by_cases hm : n ∈ l
      · rw [if_pos hm, if_pos (by simp [hm])]
      · rw [if_neg hm, if_neg (by simp [hx, hm])]

/-- C3 amended: for every well-formed template segment — brace-free non-empty
literal runs and `{name}` placeholders whose names are plain keyword names
(non-empty, free of braces and of the field punctuation `:`, `!`, `.`, `[`,
and not all digits), with no placeholder directly following another —
`maybe_format` substitutes exactly the placeholder names bound in `values`,
and every unbound placeholder survives in the output as the verbatim literal
token `{name}`; in particular when every placeholder is bound no placeholder
token remains.  Both restrictions are forced by how `str.format` reads a
field: in `{a}{b}` the key extraction misses `b` and the single missing key
makes the whole segment come back unchanged, and in a field like `{a:b}` the
lookup uses only the name before the punctuation (`a`), not the key `a:b`
that the extraction recorded, so such a segment also comes back unchanged. -/
theorem maybe_format_wf (ps : List TplPart) (values : List (String × String))
    (h : wfPartsB ps = true) :
    maybe_format (String.mk (renderChars ps)) values =
      .ok (String.mk (substChars values ps)) := by
  have hd : (String.mk (renderChars ps)).data = renderChars ps := rfl
  have hfk : format_keys (String.mk (renderChars ps)) =
      (phNames ps).map (fun t => String.mk t) := by
    unfold format_keys
    rw [hd, (fk_render ps h).1]
  have hlookup : ∀ n, TplPart.ph n ∈ ps →
      List.lookup n (mf_map (String.mk (renderChars ps)) values) =
        some ((List.lookup n values).getD ("\x7b" ++ n ++ "\x7d")) := by
    intro n hn
    have hmem : n ∈ format_keys (String.mk (renderChars ps)) := by
      rw [hfk]
      refine List.mem_map.mpr ⟨n.data, ?_, rfl⟩
      simp only [phNames, List.mem_filterMap]
      exact ⟨.ph n, hn, rfl⟩
    unfold mf_map
    cases hv : List.lookup n values with
    | some v =>
      have hnone : List.lookup n
          (((format_keys (String.mk (renderChars ps))).filter
            (fun x => (List.lookup x values).isNone)).map
              (fun x => (x, "\x7b" ++ x ++ "\x7d"))) = none := by
        rw [lookup_map_keys, if_neg]
        intro hinf
        have hfil := (List.mem_filter.mp hinf).2
        rw [hv] at hfil
        simp at hfil
      rw [lookup_append_right hnone, hv]
      rfl
    | none =>
      have hsome : List.lookup n
          (((format_keys (String.mk (renderChars ps))).filter
            (fun x => (List.lookup x values).isNone)).map
              (fun x => (x, "\x7b" ++ x ++ "\x7d"))) =
            some ("\x7b" ++ n ++ "\x7d") := by
        rw [lookup_map_keys, if_pos]
        exact List.mem_filter.mpr ⟨hmem, by rw [hv]; rfl⟩
      rw [lookup_append_left hsome]
      rfl
  have hpy := pyFormat_render
    (fun nm => (List.lookup nm values).getD ("\x7b" ++ nm ++ "\x7d"))
    ps (mf_map (String.mk (renderChars ps)) values) h hlookup
  have hfun : (ps.flatMap (fun p =>
      match p with
      | .lit s => s.data
      | .ph n => ((List.lookup n values).getD ("\x7b" ++ n ++ "\x7d")).data)) =
      substChars values ps := by
    unfold substChars
    congr 1
    funext p
    cases p with
    | lit s => rfl
    | ph n =>
      show ((List.lookup n values).getD ("\x7b" ++ n ++ "\x7d")).data =
        (match List.lookup n values with
         | some v => v.data
         | none => '{' :: (n.data ++ '}' :: []))
      cases hv : List.lookup n values with
      | some v => rfl
      | none => rfl
  unfold maybe_format
  rw [hd, hpy, hfun]

/-- Witness for `maybe_format_wf`: the segment `{course_id}/{assignment_id}`
with only `course_id` bound substitutes it and leaves `{assignment_id}` as a
verbatim token. -/
theorem maybe_format_wf_witness :
    maybe_format "\x7bcourse_id\x7d/\x7bassignment_id\x7d" [("course_id", "c1")] =
      .ok "c1/\x7bassignment_id\x7d" :=
  maybe_format_wf [.ph "course_id", .lit "/", .ph "assignment_id"]
    [("course_id", "c1")] (by decide)

theorem gds_loop_chain (kwargs : List (String × String)) :
    ∀ (parts acc out : List String),
      gds_loop kwargs acc parts = .ok out →
      List.Chain' (fun a b => contains_format a = true ∨ contains_format b = true) acc →
      List.Chain' (fun a b => contains_format a = true ∨ contains_format b = true) out := by
  intro parts
  induction parts with
  | nil =>
    intro acc out h hacc
    simp only [gds_loop, Except.ok.injEq] at h
    subst h
    have hflip : List.Chain'
        (flip (fun a b => contains_format a = true ∨ contains_format b = true)) acc :=
      hacc.imp (fun a b ha => Or.symm ha)
    exact List.chain'_reverse.mpr hflip
  | cons part parts ih =>
    intro acc out h hacc
    simp only [gds_loop] at h
    cases hmf : maybe_format part kwargs with
    | error e => rw [hmf] at h; exact absurd h (by simp)
    | ok the_part =>
      rw [hmf] at h
      simp only [] at h
      cases acc with
      | nil =>
        exact ih [the_part] out h (List.chain'_singleton the_part)
      | cons last accRest =>
        simp only [] at h
        by_cases hc : (!contains_format the_part && !contains_format last) = true
        · rw [if_pos hc] at h
          simp only [Bool.and_eq_true, Bool.not_eq_true'] at hc
          apply ih _ out h
          cases accRest with
          | nil => exact List.chain'_singleton _
          | cons y ys =>
            rw [List.chain'_cons] at hacc ⊢
            refine ⟨?_, hacc.2⟩
            rcases hacc.1 with hl | hy
            · rw [hc.2] at hl; exact absurd hl (by simp)
            · exact Or.inr hy
        · rw [if_neg hc] at h
          simp only [Bool.and_eq_true, Bool.not_eq_true', not_and_or] at hc
          apply ih _ out h
          rw [List.chain'_cons]
          refine ⟨?_, hacc⟩
          rcases hc with hp | hl
          · exact Or.inl (by simpa using hp)
          · exact Or.inr (by simpa using hl)

theorem gds_loop_keeps (kwargs : List (String × String)) :
    ∀ (parts acc out : List String),
      gds_loop kwargs acc parts = .ok out →
      (∀ x ∈ acc, contains_format x = true → x ∈ out) ∧
      (∀ part ∈ parts, ∀ p, maybe_format part kwargs = .ok p →
        contains_format p = true → p ∈ out) := by
  intro parts
  induction parts with
  | nil =>
    intro acc out h
    simp only [gds_loop, Except.ok.injEq] at h
    subst h
    refine ⟨fun x hx _ => by simpa using hx, ?_⟩
    intro part hpart
    simp at hpart
  | cons part parts ih =>
    intro acc out h
    simp only [gds_loop] at h
    cases hmf : maybe_format part kwargs with
    | error e => rw [hmf] at h; exact absurd h (by simp)
    | ok the_part =>
      rw [hmf] at h
      simp only [] at h
      have hstep : ∀ acc₂, gds_loop kwargs acc₂ parts = .ok out →
          the_part ∈ acc₂ →
          (∀ x ∈ acc, x ∈ acc₂ ∨ contains_format x = false) →
          (∀ x ∈ acc, contains_format x = true → x ∈ out) ∧
          (∀ q ∈ part :: parts, ∀ p, maybe_format q kwargs = .ok p →
            contains_format p = true → p ∈ out) := by
        intro acc₂ h₂ htp hsub
        obtain ⟨hkeep, hrest⟩ := ih acc₂ out h₂
        constructor
        · intro x hx hcf
          rcases hsub x hx with hmem | hfalse
          · exact hkeep x hmem hcf
          · rw [hcf] at hfalse; exact absurd hfalse (by simp)
        · intro q hq p hp hcf
          rcases List.mem_cons.mp hq with hq1 | hq1
          · subst hq1
            rw [hmf] at hp
            have hpp : p = the_part := by
              simpa using hp.symm
            subst hpp
            exact hkeep p htp hcf
          · exact hrest q hq1 p hp hcf
      cases acc with
      | nil =>
        apply hstep [the_part] h (by simp)
        intro x hx
        simp at hx
      | cons last accRest =>
        simp only [] at h
        by_cases hc : (!contains_format the_part && !contains_format last) = true
        · rw [if_pos hc] at h
          simp only [Bool.and_eq_true, Bool.not_eq_true'] at hc
          obtain ⟨hkeep, hrest⟩ := ih _ out h
          constructor
          · intro x hx hcf
            rcases List.mem_cons.mp hx with hx1 | hx1
            · subst hx1
              rw [hcf] at hc
              exact absurd hc.2 (by simp)
            · exact hkeep x (by simp [hx1]) hcf
          · intro q hq p hp hcf
            rcases List.mem_cons.mp hq with hq1 | hq1
            · subst hq1
              rw [hmf] at hp
              have hpp : p = the_part := by simpa using hp.symm
              subst hpp
              rw [hcf] at hc
              exact absurd hc.1 (by simp)
            · exact hrest q hq1 p hp hcf
        · rw [if_neg hc] at h
          apply hstep (the_part :: last :: accRest) h (by simp)
          intro x hx
          exact Or.inl (by simp [hx])

/-- C9: template collapse invariant — in the component list produced by
`get_directory_structure`, no two consecutive elements are both free of format
markers (adjacent literal segments have been merged into one filesystem path
component), and a formatted part that still contains a format marker is never
merged: it appears verbatim as its own element of the output. -/
theorem gds_no_adjacent_literals (ds : String) (kwargs : List (String × String))
    (out : List String) (h : get_directory_structure ds kwargs = .ok out) :
    List.Chain' (fun a b => contains_format a = true ∨ contains_format b = true) out ∧
    (∀ part ∈ full_split ds, ∀ p, maybe_format part kwargs = .ok p →
      contains_format p = true → p ∈ out) := by
  unfold get_directory_structure at h
  exact ⟨gds_loop_chain kwargs (full_split ds) [] out h List.chain'_nil,
    (gds_loop_keeps kwargs (full_split ds) [] out h).2⟩

/-- Witness for `gds_no_adjacent_literals`: the template `a/{x}/b/c` with no
bindings collapses to `["a", "{x}", "b/c"]` — the two trailing literal parts
merged, the placeholder part kept as its own element. -/
theorem gds_no_adjacent_literals_witness :
    List.Chain' (fun a b => contains_format a = true ∨ contains_format b = true)
      ["a", "\x7bx\x7d", "b/c"] ∧ ("\x7bx\x7d" : String) ∈ ["a", "\x7bx\x7d", "b/c"] := by
  have h := gds_no_adjacent_literals "a/\x7bx\x7d/b/c" [] ["a", "\x7bx\x7d", "b/c"] rfl
  exact ⟨h.1, h.2 "\x7bx\x7d" (by decide) "\x7bx\x7d" rfl (by decide)⟩

end NbExchange

